import Mathlib

/-!
Verification of the wheeldiff tree-diff pipeline (`src/wheeldiff/_impl/cmd.py`).

The development shallowly embeds the core of the program: the `is_text`
classifier, the `normalize` renaming and content-rewriting pass (including a
faithful model of the Python regex
`(^|[-_/'"\s]) <version> ($|[-_/'"\s])` under `re.MULTILINE` and of
`re.sub` scanning semantics), the recursive `Command.diff` tree comparison,
the effective-ignore computation of `Command.from_args`, and the final exit
status of `Command.run`.

Python strings are modelled as lists of characters; directory trees as an
inductive type of named files and directories in listing order. Filesystem
details that the claims do not touch (modification times used by
`filecmp.cmp(shallow=True)`, the unspecified iteration order of Python sets
inside `filecmp.dircmp`, live renaming during `os.scandir`) are modelled by
their deterministic content-level counterparts, as the spec itself does.
-/

namespace WheelDiff

/-- Python strings are modelled as lists of characters. -/
abbrev Str := List Char

/-- Outcome of probing a path with `pathlib.Path(path).read_text(errors="strict")`:
the path may be missing, unreadable, hold bytes that do not strictly decode,
or hold decodable text. -/
inductive PathState where
  | missing
  | unreadable
  | undecodable (bytes : List Nat)
  | decodable (s : Str)
deriving DecidableEq

/-- Model of `pathlib.Path(path).read_text(errors="strict")` (cmd.py line 42):
returns the decoded text, or raises (modelled as `Except.error` carrying the
exception class name). -/
def read_text : PathState → Except String Str
  | .missing => .error "FileNotFoundError"
  | .unreadable => .error "PermissionError"
  | .undecodable _ => .error "UnicodeDecodeError"
  | .decodable s => .ok s

/-- Translation of `is_text` (cmd.py lines 40-47). The bare `except:` clause
turns every failure of `read_text` — decode errors as well as missing or
unopenable paths — into a `False` result. -/
def is_text (st : PathState) : Bool :=
  match read_text st with
  | .ok _ => true
  | .error _ => false

/-- Content of a regular file that exists inside an unpacked tree: either text
that strictly decodes, or bytes that do not. -/
inductive Content where
  | text (s : Str)
  | binary (bytes : List Nat)
deriving DecidableEq

/-- Path state of an existing, readable file holding content `c`. -/
def stateOf : Content → PathState
  | .text s => .decodable s
  | .binary b => .undecodable b

/-- `is_text` applied to an existing file holding content `c`. -/
def isTextContent (c : Content) : Bool := is_text (stateOf c)

/-- Python substring test `sub in s`. -/
def pyContains (v : Str) : Str → Bool
  | [] => v.isPrefixOf []
  | c :: t => v.isPrefixOf (c :: t) || pyContains v t

/-- Python `s.replace(old, rep)` for a nonempty `old`: leftmost,
non-overlapping replacement. -/
def pyReplaceNE (old rep : Str) : Str → Str
  | [] => []
  | c :: t =>
    if h : old.isPrefixOf (c :: t) = true ∧ old ≠ [] then
      rep ++ pyReplaceNE old rep ((c :: t).drop old.length)
    else
      c :: pyReplaceNE old rep t
termination_by s => s.length
decreasing_by
  · simp only [List.length_drop]
    have : 1 ≤ old.length := by
      cases old with
      | nil => exact absurd rfl h.2
      | cons a as => simp
    simp only [List.length_cons]
    omega
  · simp

/-- Python `s.replace(old, rep)`. With an empty `old`, Python inserts `rep`
before every character and once at the end. -/
def pyReplace (old rep s : Str) : Str :=
  if old = [] then rep ++ List.foldr (fun c acc => c :: (rep ++ acc)) [] s
  else pyReplaceNE old rep s

/-- Placeholder substituted for the version token (cmd.py lines 65 and 74). -/
def placeholder : Str := "$VERSION".toList

/-- Renaming step of `normalize` (cmd.py lines 64-68): if the version occurs in
the entry name, every occurrence in the name is replaced by `$VERSION`. -/
def renameName (version n : Str) : Str :=
  if pyContains version n then pyReplace version placeholder n else n

/-- Python `\s` as used by the regex character class: the standard whitespace
characters (the model covers the ASCII range of `re.UNICODE` whitespace). -/
def isPySpace (c : Char) : Bool :=
  c = ' ' || c = '\t' || c = '\n' || c = '\r' || c.toNat = 11 || c.toNat = 12

/-- Membership in the boundary character class `[-_/'"\s]` of the version
regex (cmd.py lines 52-59); code points 39 and 34 are the single and double
quote. -/
def isBoundary (c : Char) : Bool :=
  c = '-' || c = '_' || c = '/' || c.toNat = 39 || c.toNat = 34 || isPySpace c

/-- Character of `s` at index `i`, when in range. -/
def charAt? (s : Str) (i : Nat) : Option Char := (s.drop i).head?

/-- `re.MULTILINE` anchor `^` at position `i`: start of string or right after a
newline. -/
def lineStart (s : Str) (i : Nat) : Bool :=
  decide (i = 0) || decide (charAt? s (i - 1) = some '\n')

/-- `re.MULTILINE` anchor `$` at position `i`: end of string or right before a
newline. -/
def lineEnd (s : Str) (i : Nat) : Bool :=
  decide (i = s.length) || decide (charAt? s i = some '\n')

/-- Group 2 `($|[-_/'"\s])` of the version regex at position `j`: the `$`
alternative is tried first and consumes nothing; otherwise a boundary
character is consumed and captured. Returns the match end and the capture. -/
def g2At (s : Str) (j : Nat) : Option (Nat × Str) :=
  if lineEnd s j then some (j, [])
  else
    match charAt? s j with
    | some c => if isBoundary c then some (j + 1, [c]) else none
    | none => none

/-- Attempt of the version regex at position `i` with group 1 matching the
anchor `^` (consuming nothing), then the escaped version text, then group 2. -/
def matchAnchor (v s : Str) (i : Nat) : Option (Nat × Str × Str) :=
  if lineStart s i && v.isPrefixOf (s.drop i) then
    match g2At s (i + v.length) with
    | some (e, g2) => some (e, [], g2)
    | none => none
  else none

/-- Attempt of the version regex at position `i` with group 1 consuming a
boundary character, then the escaped version text, then group 2. -/
def matchBoundary (v s : Str) (i : Nat) : Option (Nat × Str × Str) :=
  match charAt? s i with
  | some c =>
    if isBoundary c && v.isPrefixOf (s.drop (i + 1)) then
      match g2At s (i + 1 + v.length) with
      | some (e, g2) => some (e, [c], g2)
      | none => none
    else none
  | none => none

/-- Attempt of the whole version regex at position `i`: the alternation of
group 1 tries the anchor before the character class, as Python's engine
does. Returns the match end and the two captures. -/
def matchAt (v s : Str) (i : Nat) : Option (Nat × Str × Str) :=
  match matchAnchor v s i with
  | some r => some r
  | none => matchBoundary v s i

/-- Leftmost-match search of `re.sub`: try positions `i, i+1, ...`, at most `k`
of them. Returns match start, match end and the two captures. -/
def findFromAux (v s : Str) (i : Nat) : Nat → Option (Nat × Nat × Str × Str)
  | 0 => none
  | k + 1 =>
    match matchAt v s i with
    | some (e, g1, g2) => some (i, e, g1, g2)
    | none => findFromAux v s (i + 1) k

/-- Leftmost match of the version regex at a position `≥ pos`. -/
def findMatch (v s : Str) (pos : Nat) : Option (Nat × Nat × Str × Str) :=
  findFromAux v s pos (s.length + 1 - pos)

/-- Scanning loop of `version_re.sub(r"\1$VERSION\2", content)` (cmd.py line
74): emit the text before the leftmost match, then group 1, the placeholder
and group 2, and continue after the match; an empty match additionally copies
one input character before continuing, as Python's `re.sub` does. -/
def pySubGo (v s : Str) : Nat → Nat → Str
  | pos, 0 => s.drop pos
  | pos, fuel + 1 =>
    match findMatch v s pos with
    | none => s.drop pos
    | some (a, e, g1, g2) =>
      ((s.drop pos).take (a - pos)) ++ g1 ++ placeholder ++ g2 ++
        (if e = a then
          (match charAt? s a with
           | some c => c :: pySubGo v s (a + 1) fuel
           | none => pySubGo v s (a + 1) fuel)
         else pySubGo v s e fuel)

/-- Translation of the content rewriting step `version_re.sub(r"\1$VERSION\2",
content)` (cmd.py lines 72-77). -/
def pySub (v s : Str) : Str := pySubGo v s 0 (s.length + 1)

/-- Directory tree entry of an unpacked wheel: a regular file with its
content, or a subdirectory with its entries in listing order. -/
inductive Entry where
  | file (name : Str) (content : Content)
  | dir (name : Str) (entries : List Entry)

mutual

/-- Decidable equality of entries. -/
def entryDecEq : (a b : Entry) → Decidable (a = b)
  | .file n c, .file n' c' =>
    match decEq n n', decEq c c' with
    | isTrue h1, isTrue h2 => isTrue (by rw [h1, h2])
    | isFalse h1, _ => isFalse (by intro h; cases h; exact h1 rfl)
    | isTrue _, isFalse h2 => isFalse (by intro h; cases h; exact h2 rfl)
  | .file _ _, .dir _ _ => isFalse (by intro h; cases h)
  | .dir _ _, .file _ _ => isFalse (by intro h; cases h)
  | .dir n es, .dir n' es' =>
    match decEq n n', entryListDecEq es es' with
    | isTrue h1, isTrue h2 => isTrue (by rw [h1, h2])
    | isFalse h1, _ => isFalse (by intro h; cases h; exact h1 rfl)
    | isTrue _, isFalse h2 => isFalse (by intro h; cases h; exact h2 rfl)

/-- Decidable equality of entry lists. -/
def entryListDecEq : (as bs : List Entry) → Decidable (as = bs)
  | [], [] => isTrue rfl
  | [], _ :: _ => isFalse (by intro h; cases h)
  | _ :: _, [] => isFalse (by intro h; cases h)
  | a :: as, b :: bs =>
    match entryDecEq a b, entryListDecEq as bs with
    | isTrue h1, isTrue h2 => isTrue (by rw [h1, h2])
    | isFalse h1, _ => isFalse (by intro h; cases h; exact h1 rfl)
    | isTrue _, isFalse h2 => isFalse (by intro h; cases h; exact h2 rfl)

end

instance : DecidableEq Entry := entryDecEq

instance : DecidableEq (List Entry) := entryListDecEq

/-- Name of a directory entry. -/
def entryName : Entry → Str
  | .file n _ => n
  | .dir n _ => n

mutual

/-- Translation of `normalize` (cmd.py lines 49-77) on one directory entry:
rename when the version occurs in the name, recurse into directories, and
rewrite version occurrences in decodable text contents when
`version_in_content` is enabled. -/
def normalizeEntry (version : Str) (vic : Bool) : Entry → Entry
  | .file n c =>
    .file (renameName version n)
      (match c with
       | .text s => .text (if vic then pySub version s else s)
       | .binary b => .binary b)
  | .dir n es => .dir (renameName version n) (normalizeList version vic es)

/-- `normalize` applied to every entry of one directory, in listing order. -/
def normalizeList (version : Str) (vic : Bool) : List Entry → List Entry
  | [] => []
  | e :: es => normalizeEntry version vic e :: normalizeList version vic es

end

/-- Difference categories (cmd.py lines 24-28). -/
inductive DiffType where
  | LEFT_ONLY
  | RIGHT_ONLY
  | TEXT_DIFFERS
  | BINARY_DIFFERS
deriving DecidableEq

/-- Accumulated difference record (cmd.py lines 31-37). -/
structure Record where
  path : Str
  diff_type : DiffType
deriving DecidableEq

/-- Entry of a directory listing with the given name, when present. -/
def lookupEntry (es : List Entry) (n : Str) : Option Entry :=
  es.find? (fun e => decide (entryName e = n))

/-- Fixed suffix tested by the RECORD ignore policy (cmd.py line 146). -/
def recordSuffix : Str := ".dist-info/RECORD".toList

/-- Python `path.endswith(suffix)`. -/
def pyEndswith (s suff : Str) : Bool := suff.isSuffixOf s

/-- Records for `cmp.diff_files` (cmd.py lines 143-157): common names holding
files on both sides whose contents differ, skipping paths ending in
`.dist-info/RECORD` when the record ignore policy is active; a differing pair
is classified `TEXT_DIFFERS` exactly when both sides pass `is_text`. -/
def diffFiles (ir : Bool) (dir1 pre : Str) (es2 : List Entry) : List Entry → List Record
  | [] => []
  | .file n c1 :: rest =>
    (match lookupEntry es2 n with
     | some (.file _ c2) =>
       if c1 = c2 then []
       else if ir && pyEndswith (dir1 ++ '/' :: n) recordSuffix then []
       else [⟨pre ++ n,
             if isTextContent c1 && isTextContent c2 then DiffType.TEXT_DIFFERS
             else DiffType.BINARY_DIFFERS⟩]
     | _ => []) ++ diffFiles ir dir1 pre es2 rest
  | .dir _ _ :: rest => diffFiles ir dir1 pre es2 rest

mutual

/-- Translation of `Command.diff` (cmd.py lines 127-161): left-only entries,
right-only entries, differing common files, then recursion into common
subdirectories. `dir1` is the on-disk path of the left directory (consulted
by the RECORD suffix test) and `pre` the accumulated slash-separated record
prefix. The unspecified Python set iteration order inside `filecmp.dircmp` is
modelled by directory listing order. -/
def diffDir (ir : Bool) (dir1 pre : Str) (es1 es2 : List Entry) : List Record :=
  ((es1.filter (fun e => decide (entryName e ∉ es2.map entryName))).map
    (fun e => ⟨pre ++ entryName e, DiffType.LEFT_ONLY⟩)) ++
  ((es2.filter (fun e => decide (entryName e ∉ es1.map entryName))).map
    (fun e => ⟨pre ++ entryName e, DiffType.RIGHT_ONLY⟩)) ++
  diffFiles ir dir1 pre es2 es1 ++
  diffSubdirs ir dir1 pre es2 es1
termination_by (sizeOf es1, 1)

/-- Recursion of `Command.diff` into `cmp.common_dirs` (cmd.py lines 158-161):
names that are directories on both sides are recursed into with the prefix
extended by `name + "/"`. -/
def diffSubdirs (ir : Bool) (dir1 pre : Str) (es2 : List Entry) : List Entry → List Record
  | [] => []
  | .dir n cs1 :: rest =>
    (match lookupEntry es2 n with
     | some (.dir _ cs2) => diffDir ir (dir1 ++ '/' :: n) (pre ++ n ++ ['/']) cs1 cs2
     | _ => []) ++ diffSubdirs ir dir1 pre es2 rest
  | .file _ _ :: rest => diffSubdirs ir dir1 pre es2 rest
termination_by l => (sizeOf l, 0)

end

/-- Records of one diff session (`Command.run`, cmd.py lines 177-186): both
trees are normalized with their own wheel's version, with content rewriting
exactly when `"version"` is in the effective ignore list, then compared; the
record ignore policy is active exactly when `"record"` is in the list.
`root1` is the on-disk path of the left unpacked tree. -/
def sessionRecords (ignoreList : List Str) (root1 : Str) (v1 v2 : Str)
    (t1 t2 : List Entry) : List Record :=
  diffDir (decide (("record".toList : Str) ∈ ignoreList)) root1 []
    (normalizeList v1 (decide (("version".toList : Str) ∈ ignoreList)) t1)
    (normalizeList v2 (decide (("version".toList : Str) ∈ ignoreList)) t2)

/-- Final exit status of `Command.run` (cmd.py line 198):
`sys.exit(0 if not accum else 2)`. -/
def exitStatus (accum : List Record) : Nat := if accum = [] then 0 else 2

/-- Exit status of one diff session. -/
def sessionExit (ignoreList : List Str) (root1 : Str) (v1 v2 : Str)
    (t1 t2 : List Entry) : Nat :=
  exitStatus (sessionRecords ignoreList root1 v1 v2 t1 t2)

/-- Python `",".join(xs)`. -/
def commaJoin : List Str → Str
  | [] => []
  | [x] => x
  | x :: xs => x ++ ',' :: commaJoin xs

/-- Python `s.split(",")`. -/
def commaSplit : Str → List Str
  | [] => [[]]
  | c :: t =>
    if c = ',' then [] :: commaSplit t
    else
      match commaSplit t with
      | [] => [[c]]
      | p :: ps => (c :: p) :: ps

/-- Translation of `Command.from_args` (cmd.py lines 116-125): the effective
ignore set `set(",".join(ignore).split(",")) - set(",".join(no_ignore).split(","))`,
modelled as a duplicate-free list in first-occurrence order (Python set
iteration order is unspecified). No validation of the tokens is performed. -/
def effectiveIgnore (ig nig : List Str) : List Str :=
  ((commaSplit (commaJoin ig)).dedup).filter
    (fun t => decide (t ∉ commaSplit (commaJoin nig)))

/-- Specification-level predicate, following the spec's words: the occurrence
of `v` at position `i` of `s` is bounded on each side by a string boundary or
by one of the boundary characters. This is the spec's description of which
occurrences the content rewriting replaces, to be compared with the behaviour
of `pySub`. -/
def specBoundedOccurrence (v s : Str) (i : Nat) : Bool :=
  v.isPrefixOf (s.drop i) &&
  (decide (i = 0) ||
    (match charAt? s (i - 1) with
     | some c => isBoundary c
     | none => false)) &&
  (decide (i + v.length = s.length) ||
    (match charAt? s (i + v.length) with
     | some c => isBoundary c
     | none => false))

/-! ### General helper lemmas -/

/-- Strong induction over entry lists: to prove `P es` one may assume `P cs`
for the child list of every directory member of `es`. -/
theorem entryListStrongInd (P : List Entry → Prop)
    (step : ∀ es, (∀ m cs, Entry.dir m cs ∈ es → P cs) → P es) :
    ∀ es, P es := by
  have H : ∀ N es, sizeOf es ≤ N → P es := by
    intro N
    induction N with
    | zero =>
      intro es h
      exfalso
      have : 0 < sizeOf es := by cases es <;> simp
      omega
    | succ N ih =>
      intro es h
      apply step
      intro m cs hmem
      have h1 : sizeOf (Entry.dir m cs) < sizeOf es := List.sizeOf_lt_of_mem hmem
      have h2 : sizeOf (Entry.dir m cs) = 1 + sizeOf m + sizeOf cs := by simp
      exact ih cs (by omega)
  intro es
  exact H (sizeOf es) es (le_refl _)

/-- Splitting a slash-terminated concatenation: if neither `a` nor `b`
contains a slash, `a ++ '/' :: x = b ++ '/' :: y` forces `a = b` and `x = y`. -/
theorem slashSplit : ∀ (a b x y : Str), ('/' : Char) ∉ a → ('/' : Char) ∉ b →
    a ++ '/' :: x = b ++ '/' :: y → a = b ∧ x = y := by
  intro a
  induction a with
  | nil =>
    intro b x y _ hb h
    cases b with
    | nil => simpa using h
    | cons d b' =>
      exfalso
      simp only [List.nil_append, List.cons_append, List.cons.injEq] at h
      exact hb (h.1 ▸ List.mem_cons_self d b')
  | cons c a' ih =>
    intro b x y ha hb h
    cases b with
    | nil =>
      exfalso
      simp only [List.cons_append, List.nil_append, List.cons.injEq] at h
      exact ha (h.1 ▸ List.mem_cons_self c a')
    | cons d b' =>
      simp only [List.cons_append, List.cons.injEq] at h
      have ha' : ('/' : Char) ∉ a' := fun hm => ha (List.mem_cons_of_mem c hm)
      have hb' : ('/' : Char) ∉ b' := fun hm => hb (List.mem_cons_of_mem d hm)
      obtain ⟨h1, h2⟩ := ih b' x y ha' hb' h.2
      exact ⟨by rw [h.1, h1], h2⟩

/-- A slash-free string cannot both start a slash-terminated concatenation and
equal it: `b ++ '/' :: y = a` contradicts `'/' ∉ a`. -/
theorem noSlashNoSplit (a b y : Str) (ha : ('/' : Char) ∉ a) :
    b ++ '/' :: y ≠ a := by
  intro h
  apply ha
  rw [← h]
  exact List.mem_append_right b (List.mem_cons_self _ _)

/-- Every record produced by the `diff_files` phase carries the path of a file
entry of the left listing, extended by the prefix. -/
theorem diffFiles_shape (ir : Bool) (d p : Str) (es2 : List Entry) :
    ∀ (l : List Entry) (r : Record), r ∈ diffFiles ir d p es2 l →
      ∃ nm c1, Entry.file nm c1 ∈ l ∧ r.path = p ++ nm := by
  intro l
  induction l with
  | nil => intro r hr; simp [diffFiles] at hr
  | cons e rest ih =>
    intro r hr
    cases e with
    | dir n cs =>
      obtain ⟨nm, c1, hmem, hpath⟩ := ih r (by simpa [diffFiles] using hr)
      exact ⟨nm, c1, List.mem_cons_of_mem _ hmem, hpath⟩
    | file n c1 =>
      rw [diffFiles] at hr
      rcases List.mem_append.mp hr with hl | hrr
      · split at hl
        · split at hl
          · simp at hl
          · split at hl
            · simp at hl
            · have := List.mem_singleton.mp hl
              exact ⟨n, c1, List.mem_cons_self _ _, by rw [this]⟩
        · simp at hl
      · obtain ⟨nm, c1', hmem, hpath⟩ := ih r hrr
        exact ⟨nm, c1', List.mem_cons_of_mem _ hmem, hpath⟩

/-- Auxiliary form of the prefix lemma for the subdirectory phase: assuming the
prefix property for all child listings, every record of `diffSubdirs` extends
the current prefix. -/
theorem diffSubdirs_pre_aux :
    ∀ (l : List Entry),
      (∀ m cs, Entry.dir m cs ∈ l →
        ∀ (ir : Bool) (d p : Str) (es2 : List Entry) (r : Record),
          r ∈ diffDir ir d p cs es2 → ∃ q, r.path = p ++ q) →
      ∀ (ir : Bool) (d p : Str) (es2 : List Entry) (r : Record),
        r ∈ diffSubdirs ir d p es2 l → ∃ q, r.path = p ++ q := by
  intro l
  induction l with
  | nil => intro _ ir d p es2 r hr; simp [diffSubdirs] at hr
  | cons e rest ih =>
    intro hIH ir d p es2 r hr
    cases e with
    | file n c =>
      exact ih (fun m cs hm => hIH m cs (List.mem_cons_of_mem _ hm)) ir d p es2 r
        (by simpa [diffSubdirs] using hr)
    | dir n cs =>
      rw [diffSubdirs] at hr
      rcases List.mem_append.mp hr with hl | hrr
      · split at hl
        · rename_i n2 cs2 hlook
          obtain ⟨q, hq⟩ :=
            hIH n cs (List.mem_cons_self _ _) ir (d ++ '/' :: n) (p ++ n ++ ['/']) cs2 r hl
          exact ⟨n ++ '/' :: q, by rw [hq]; simp⟩
        · simp at hl
      · exact ih (fun m cs' hm => hIH m cs' (List.mem_cons_of_mem _ hm)) ir d p es2 r hrr

/-- Every record produced by `diffDir` has the current prefix as a prefix of
its path. -/
theorem diffDir_pre :
    ∀ (es1 : List Entry) (ir : Bool) (d p : Str) (es2 : List Entry) (r : Record),
      r ∈ diffDir ir d p es1 es2 → ∃ q, r.path = p ++ q := by
  apply entryListStrongInd
    (P := fun es1 => ∀ (ir : Bool) (d p : Str) (es2 : List Entry) (r : Record),
      r ∈ diffDir ir d p es1 es2 → ∃ q, r.path = p ++ q)
  intro es1 IH ir d p es2 r hr
  rw [diffDir] at hr
  rcases List.mem_append.mp hr with h3 | hsub
  · rcases List.mem_append.mp h3 with h2 | hdf
    · rcases List.mem_append.mp h2 with hlo | hro
      · obtain ⟨e, _, he⟩ := List.mem_map.mp hlo
        exact ⟨entryName e, by rw [← he]⟩
      · obtain ⟨e, _, he⟩ := List.mem_map.mp hro
        exact ⟨entryName e, by rw [← he]⟩
    · obtain ⟨nm, c1, _, hpath⟩ := diffFiles_shape ir d p es2 es1 r hdf
      exact ⟨nm, hpath⟩
  · exact diffSubdirs_pre_aux es1 IH ir d p es2 r hsub

/-- Every record produced by the subdirectory phase descends into a name that
is a directory of the left listing and also present (as a directory) in the
right listing; its path is that name followed by a slash and a remainder. -/
theorem diffSubdirs_shape :
    ∀ (l : List Entry) (ir : Bool) (d p : Str) (es2 : List Entry) (r : Record),
      r ∈ diffSubdirs ir d p es2 l →
      ∃ m cs1 cs2 rest, Entry.dir m cs1 ∈ l ∧
        lookupEntry es2 m = some (Entry.dir m cs2) ∧
        r.path = p ++ m ++ '/' :: rest := by
  intro l
  induction l with
  | nil => intro ir d p es2 r hr; simp [diffSubdirs] at hr
  | cons e rest ih =>
    intro ir d p es2 r hr
    cases e with
    | file n c =>
      obtain ⟨m, cs1, cs2, q, hmem, hlook, hpath⟩ :=
        ih ir d p es2 r (by simpa [diffSubdirs] using hr)
      exact ⟨m, cs1, cs2, q, List.mem_cons_of_mem _ hmem, hlook, hpath⟩
    | dir n cs =>
      rw [diffSubdirs] at hr
      rcases List.mem_append.mp hr with hl | hrr
      · split at hl
        · rename_i n2 cs2 hlook
          have hn2 : n2 = n := by
            have := List.find?_some hlook
            simpa [entryName] using this
          subst hn2
          obtain ⟨q, hq⟩ :=
            diffDir_pre cs ir (d ++ '/' :: n2) (p ++ n2 ++ ['/']) cs2 r hl
          exact ⟨n2, cs, cs2, q, List.mem_cons_self _ _, hlook,
            by rw [hq]; simp⟩
        · simp at hl
      · obtain ⟨m, cs1, cs2, q, hmem, hlook, hpath⟩ := ih ir d p es2 r hrr
        exact ⟨m, cs1, cs2, q, List.mem_cons_of_mem _ hmem, hlook, hpath⟩

/-- When no entry surviving the filter is named `nm`, the produced record list
has no record with path `p ++ nm`. -/
theorem recFilter_nil (p : Str) (k : DiffType) (q : Entry → Bool) (nm : Str)
    (l : List Entry) (hl : ∀ x ∈ l, q x = true → entryName x ≠ nm) :
    ((l.filter q).map (fun x => Record.mk (p ++ entryName x) k)).filter
      (fun r => decide (r.path = p ++ nm)) = [] := by
  apply List.filter_eq_nil_iff.mpr
  intro r hr
  obtain ⟨x, hx, hxr⟩ := List.mem_map.mp hr
  have hxl : x ∈ l := List.mem_of_mem_filter hx
  have hq : q x = true := List.of_mem_filter hx
  intro hcon
  have hpath : r.path = p ++ nm := of_decide_eq_true hcon
  rw [← hxr] at hpath
  exact hl x hxl hq (List.append_cancel_left hpath)

/-- When the entry names are duplicate-free and `e` survives the filter, the
produced record list has exactly the one record of `e` at path
`p ++ entryName e`. -/
theorem recFilter_singleton (p : Str) (k : DiffType) (q : Entry → Bool) :
    ∀ (l : List Entry), (l.map entryName).Nodup →
      ∀ e ∈ l, q e = true →
      ((l.filter q).map (fun x => Record.mk (p ++ entryName x) k)).filter
        (fun r => decide (r.path = p ++ entryName e)) =
        [Record.mk (p ++ entryName e) k] := by
  intro l
  induction l with
  | nil => intro _ e he; simp at he
  | cons a rest ih =>
    intro hnd e he hq
    have hnd' := hnd
    rw [List.map_cons, List.nodup_cons] at hnd'
    rcases List.mem_cons.mp he with rfl | hmem
    · rw [List.filter_cons_of_pos hq, List.map_cons, List.filter_cons_of_pos (by simp)]
      have htail : ((rest.filter q).map (fun x => Record.mk (p ++ entryName x) k)).filter
          (fun r => decide (r.path = p ++ entryName e)) = [] := by
        apply recFilter_nil
        intro x hx _ hcon
        exact hnd'.1 (hcon ▸ List.mem_map_of_mem entryName hx)
      rw [htail]
    · have hne : entryName a ≠ entryName e := by
        intro hcon
        exact hnd'.1 (hcon ▸ List.mem_map_of_mem entryName hmem)
      by_cases hqa : q a = true
      · rw [List.filter_cons_of_pos hqa, List.map_cons,
          List.filter_cons_of_neg (by simp [hne])]
        exact ih hnd'.2 e hmem hq
      · rw [List.filter_cons_of_neg (by simpa using hqa)]
        exact ih hnd'.2 e hmem hq

/-- Under duplicate-free names, looking up the name of a member returns that
member. -/
theorem lookup_of_mem_nodup :
    ∀ (es : List Entry), (es.map entryName).Nodup → ∀ e ∈ es,
      lookupEntry es (entryName e) = some e := by
  intro es
  induction es with
  | nil => intro _ e he; simp at he
  | cons a rest ih =>
    intro hnd e he
    have hnd' := hnd
    rw [List.map_cons, List.nodup_cons] at hnd'
    rcases List.mem_cons.mp he with rfl | hmem
    · simp [lookupEntry]
    · have hne : entryName a ≠ entryName e := by
        intro hcon
        exact hnd'.1 (hcon ▸ List.mem_map_of_mem entryName hmem)
      rw [lookupEntry, List.find?_cons_of_neg _ (by simp [hne])]
      simpa [lookupEntry] using ih hnd'.2 e hmem

/-- Characterization of the `diff_files` phase at a common differing file:
under duplicate-free names, the records at path `p ++ n` are exactly one
record whose kind is `TEXT_DIFFERS` iff both contents pass `is_text`. -/
theorem diffFiles_filter (ir : Bool) (d p : Str) (es2 : List Entry) (n : Str)
    (c1 c2 : Content)
    (hskip : (ir && pyEndswith (d ++ '/' :: n) recordSuffix) = false)
    (hlook : lookupEntry es2 n = some (Entry.file n c2)) (hne : c1 ≠ c2) :
    ∀ (l : List Entry), (l.map entryName).Nodup → Entry.file n c1 ∈ l →
      (diffFiles ir d p es2 l).filter (fun r => decide (r.path = p ++ n)) =
        [⟨p ++ n, if isTextContent c1 && isTextContent c2 then DiffType.TEXT_DIFFERS
          else DiffType.BINARY_DIFFERS⟩] := by
  intro l
  induction l with
  | nil => intro _ hmem; simp at hmem
  | cons a rest ih =>
    intro hnd hmem
    have hnd' := hnd
    rw [List.map_cons, List.nodup_cons] at hnd'
    rcases List.mem_cons.mp hmem with heq | hmem'
    · subst heq
      rw [diffFiles, List.filter_append]
      have hrest : (diffFiles ir d p es2 rest).filter
          (fun r => decide (r.path = p ++ n)) = [] := by
        apply List.filter_eq_nil_iff.mpr
        intro r hr hcon
        obtain ⟨nm, cm, hmemr, hpath⟩ := diffFiles_shape ir d p es2 rest r hr
        have hnmn : nm = n := by
          have h1 := of_decide_eq_true hcon
          rw [hpath] at h1
          exact List.append_cancel_left h1
        apply hnd'.1
        simp only [entryName]
        rw [← hnmn]
        have hmm := List.mem_map_of_mem entryName hmemr
        simpa [entryName] using hmm
      rw [hrest, List.append_nil]
      split
      · rename_i n2 c2' heq2
        rw [hlook] at heq2
        injection heq2 with heq3
        injection heq3 with heq4 heq5
        subst heq5
        rw [if_neg hne, hskip]
        simp
      · rename_i hbad
        exact absurd hlook (hbad n c2)
    · have hnname : entryName a ≠ n := by
        intro hcon
        apply hnd'.1
        rw [hcon]
        exact List.mem_map_of_mem entryName (show Entry.file n c1 ∈ rest from hmem')
      cases a with
      | dir m cs =>
        rw [diffFiles]
        exact ih hnd'.2 hmem'
      | file m cm =>
        rw [diffFiles, List.filter_append]
        have hhead : (diffFiles ir d p es2 [Entry.file m cm]).filter
            (fun r => decide (r.path = p ++ n)) = [] := by
          apply List.filter_eq_nil_iff.mpr
          intro r hr hcon
          obtain ⟨nm, cm2, hmemr, hpath⟩ := diffFiles_shape ir d p es2 [Entry.file m cm] r hr
          have hnm : nm = m := by
            rcases List.mem_singleton.mp hmemr with h1
            injection h1 with h2 h3
          have h1 := of_decide_eq_true hcon
          rw [hpath, hnm] at h1
          exact hnname (List.append_cancel_left h1)
        rw [diffFiles] at hhead
        rw [diffFiles] at hhead
        rw [List.append_nil] at hhead
        rw [hhead, List.nil_append]
        exact ih hnd'.2 hmem'

/-- Shape of every record produced by `diffDir`: either a record at
`p ++ name` for a name of one of the two listings, or a record from the
recursion into a common directory `m`, whose path is `p ++ m ++ "/" ++ rest`. -/
theorem diffDir_shape (ir : Bool) (d p : Str) (es1 es2 : List Entry) (r : Record)
    (hr : r ∈ diffDir ir d p es1 es2) :
    (∃ nm, (nm ∈ es1.map entryName ∨ nm ∈ es2.map entryName) ∧ r.path = p ++ nm) ∨
    (∃ m rest, m ∈ es1.map entryName ∧ m ∈ es2.map entryName ∧
      r.path = p ++ m ++ '/' :: rest) := by
  rw [diffDir] at hr
  rcases List.mem_append.mp hr with h3 | hsub
  · rcases List.mem_append.mp h3 with h2 | hdf
    · rcases List.mem_append.mp h2 with hlo | hro
      · obtain ⟨e, he, heq⟩ := List.mem_map.mp hlo
        refine Or.inl ⟨entryName e, Or.inl ?_, by rw [← heq]⟩
        exact List.mem_map_of_mem entryName (List.mem_of_mem_filter he)
      · obtain ⟨e, he, heq⟩ := List.mem_map.mp hro
        refine Or.inl ⟨entryName e, Or.inr ?_, by rw [← heq]⟩
        exact List.mem_map_of_mem entryName (List.mem_of_mem_filter he)
    · obtain ⟨nm, c1, hmem, hpath⟩ := diffFiles_shape ir d p es2 es1 r hdf
      refine Or.inl ⟨nm, Or.inl ?_, hpath⟩
      have := List.mem_map_of_mem entryName hmem
      simpa [entryName] using this
  · obtain ⟨m, cs1, cs2, rest, hmem, hlook, hpath⟩ := diffSubdirs_shape es1 ir d p es2 r hsub
    refine Or.inr ⟨m, rest, ?_, ?_, hpath⟩
    · have := List.mem_map_of_mem entryName hmem
      simpa [entryName] using this
    · have hmem2 : Entry.dir m cs2 ∈ es2 := List.mem_of_find?_eq_some hlook
      have := List.mem_map_of_mem entryName hmem2
      simpa [entryName] using this

/-- C4: for every file that is present in both trees and whose content
differs, when the file is not skipped by the RECORD ignore policy, `diff`
emits exactly one record at that file's path (so the four kinds are mutually
exclusive for it), and the record's kind is `TEXT_DIFFERS` when `is_text`
accepts the file on both sides and `BINARY_DIFFERS` otherwise. -/
theorem c4_unique_record (ir : Bool) (d p : Str) (es1 es2 : List Entry)
    (h1 : (es1.map entryName).Nodup) (h2 : (es2.map entryName).Nodup)
    (n : Str) (c1 c2 : Content)
    (hm1 : Entry.file n c1 ∈ es1) (hm2 : Entry.file n c2 ∈ es2)
    (hdiff : c1 ≠ c2)
    (hslash : ('/' : Char) ∉ n)
    (hskip : (ir && pyEndswith (d ++ '/' :: n) recordSuffix) = false) :
    (diffDir ir d p es1 es2).filter (fun r => decide (r.path = p ++ n)) =
      [⟨p ++ n, if isTextContent c1 && isTextContent c2 then DiffType.TEXT_DIFFERS
        else DiffType.BINARY_DIFFERS⟩] := by
  have hlook : lookupEntry es2 n = some (Entry.file n c2) := by
    have := lookup_of_mem_nodup es2 h2 _ hm2
    simpa [entryName] using this
  have hn1 : n ∈ es1.map entryName := by
    have := List.mem_map_of_mem entryName hm1
    simpa [entryName] using this
  have hn2 : n ∈ es2.map entryName := by
    have := List.mem_map_of_mem entryName hm2
    simpa [entryName] using this
  have hsubnil : (diffSubdirs ir d p es2 es1).filter
      (fun r => decide (r.path = p ++ n)) = [] := by
    apply List.filter_eq_nil_iff.mpr
    intro r hr hcon
    obtain ⟨m, cs1, cs2, rest, hmem, hlookm, hpath⟩ := diffSubdirs_shape es1 ir d p es2 r hr
    have hp := of_decide_eq_true hcon
    rw [hpath, List.append_assoc] at hp
    exact noSlashNoSplit n m rest hslash (List.append_cancel_left hp)
  rw [diffDir, List.filter_append, List.filter_append, List.filter_append]
  rw [recFilter_nil p DiffType.LEFT_ONLY _ n es1 (by
    intro x hx hq hcon
    exact (of_decide_eq_true hq) (hcon ▸ hn2))]
  rw [recFilter_nil p DiffType.RIGHT_ONLY _ n es2 (by
    intro x hx hq hcon
    exact (of_decide_eq_true hq) (hcon ▸ hn1))]
  rw [diffFiles_filter ir d p es2 n c1 c2 hskip hlook hdiff es1 h1 hm1]
  rw [hsubnil]
  simp

/-- C8: a directory present only in tree A yields exactly one `LEFT_ONLY`
record at its path and no record for any of its descendants, and symmetrically
a directory present only in tree B yields exactly one `RIGHT_ONLY` record and
no descendant records; only common subdirectories are recursed into. -/
theorem c8_one_sided_dirs (ir : Bool) (d p : Str) (es1 es2 : List Entry)
    (h1 : (es1.map entryName).Nodup) (h2 : (es2.map entryName).Nodup)
    (hs1 : ∀ e ∈ es1, ('/' : Char) ∉ entryName e)
    (hs2 : ∀ e ∈ es2, ('/' : Char) ∉ entryName e) :
    (∀ nm cs, Entry.dir nm cs ∈ es1 → nm ∉ es2.map entryName →
      ((diffDir ir d p es1 es2).filter (fun r => decide (r.path = p ++ nm)) =
        [⟨p ++ nm, DiffType.LEFT_ONLY⟩] ∧
       ∀ r ∈ diffDir ir d p es1 es2, ¬ ((p ++ nm ++ ['/']) <+: r.path))) ∧
    (∀ nm cs, Entry.dir nm cs ∈ es2 → nm ∉ es1.map entryName →
      ((diffDir ir d p es1 es2).filter (fun r => decide (r.path = p ++ nm)) =
        [⟨p ++ nm, DiffType.RIGHT_ONLY⟩] ∧
       ∀ r ∈ diffDir ir d p es1 es2, ¬ ((p ++ nm ++ ['/']) <+: r.path))) := by
  have noDescend : ∀ nm, ('/' : Char) ∉ nm →
      (nm ∈ es1.map entryName → nm ∉ es2.map entryName → False) →
      ∀ r ∈ diffDir ir d p es1 es2, ¬ ((p ++ nm ++ ['/']) <+: r.path) → True :=
    fun _ _ _ _ _ _ => trivial
  constructor
  · intro nm cs hmem hnm
    have hslash : ('/' : Char) ∉ nm := by
      have := hs1 _ hmem
      simpa [entryName] using this
    constructor
    · -- exactly one LEFT_ONLY record at p ++ nm
      have hronil : ((es2.filter (fun e => decide (entryName e ∉ es1.map entryName))).map
          (fun e => Record.mk (p ++ entryName e) DiffType.RIGHT_ONLY)).filter
          (fun r => decide (r.path = p ++ nm)) = [] := by
        apply recFilter_nil
        intro x hx _ hcon
        exact hnm (hcon ▸ List.mem_map_of_mem entryName hx)
      have hdfnil : (diffFiles ir d p es2 es1).filter
          (fun r => decide (r.path = p ++ nm)) = [] := by
        apply List.filter_eq_nil_iff.mpr
        intro r hr hcon
        obtain ⟨nm', c', hmemf, hpath⟩ := diffFiles_shape ir d p es2 es1 r hr
        have hp := of_decide_eq_true hcon
        rw [hpath] at hp
        have heqn : nm' = nm := List.append_cancel_left hp
        subst heqn
        have hinj := List.inj_on_of_nodup_map h1 hmemf hmem (by simp [entryName])
        simp at hinj
      have hsubnil : (diffSubdirs ir d p es2 es1).filter
          (fun r => decide (r.path = p ++ nm)) = [] := by
        apply List.filter_eq_nil_iff.mpr
        intro r hr hcon
        obtain ⟨m, cs1, cs2, rest, hmemd, hlookm, hpath⟩ :=
          diffSubdirs_shape es1 ir d p es2 r hr
        have hp := of_decide_eq_true hcon
        rw [hpath, List.append_assoc] at hp
        exact noSlashNoSplit nm m rest hslash (List.append_cancel_left hp)
      have hlosing : ((es1.filter (fun e => decide (entryName e ∉ es2.map entryName))).map
          (fun e => Record.mk (p ++ entryName e) DiffType.LEFT_ONLY)).filter
          (fun r => decide (r.path = p ++ entryName (Entry.dir nm cs))) =
          [Record.mk (p ++ entryName (Entry.dir nm cs)) DiffType.LEFT_ONLY] :=
        recFilter_singleton p DiffType.LEFT_ONLY _ es1 h1 _ hmem (by
          simp only [entryName]
          exact decide_eq_true hnm)
      rw [diffDir, List.filter_append, List.filter_append, List.filter_append]
      have hnmname : entryName (Entry.dir nm cs) = nm := rfl
      rw [hnmname] at hlosing
      rw [hlosing, hronil, hdfnil, hsubnil]
      simp
    · -- no record for a descendant of nm
      intro r hr hpre
      obtain ⟨t, ht⟩ := hpre
      rcases diffDir_shape ir d p es1 es2 r hr with ⟨nm', hmem', hpath⟩ | ⟨m, rest, hm1, hm2, hpath⟩
      · have hslash' : ('/' : Char) ∉ nm' := by
          rcases hmem' with hin | hin <;>
            obtain ⟨e, he, heq⟩ := List.mem_map.mp hin
          · exact heq ▸ hs1 e he
          · exact heq ▸ hs2 e he
        rw [hpath] at ht
        rw [List.append_assoc, List.append_assoc] at ht
        have := List.append_cancel_left ht
        simp only [List.singleton_append] at this
        exact noSlashNoSplit nm' nm t hslash' this
      · have hslashm : ('/' : Char) ∉ m := by
          obtain ⟨e, he, heq⟩ := List.mem_map.mp hm1
          exact heq ▸ hs1 e he
        rw [hpath] at ht
        rw [List.append_assoc, List.append_assoc, List.append_assoc] at ht
        have hcan := List.append_cancel_left ht
        simp only [List.singleton_append] at hcan
        obtain ⟨heqm, _⟩ := slashSplit nm m t rest hslash hslashm hcan
        exact hnm (heqm ▸ hm2)
  · intro nm cs hmem hnm
    have hslash : ('/' : Char) ∉ nm := by
      have := hs2 _ hmem
      simpa [entryName] using this
    constructor
    · have hlonil : ((es1.filter (fun e => decide (entryName e ∉ es2.map entryName))).map
          (fun e => Record.mk (p ++ entryName e) DiffType.LEFT_ONLY)).filter
          (fun r => decide (r.path = p ++ nm)) = [] := by
        apply recFilter_nil
        intro x hx _ hcon
        exact hnm (hcon ▸ List.mem_map_of_mem entryName hx)
      have hdfnil : (diffFiles ir d p es2 es1).filter
          (fun r => decide (r.path = p ++ nm)) = [] := by
        apply List.filter_eq_nil_iff.mpr
        intro r hr hcon
        obtain ⟨nm', c', hmemf, hpath⟩ := diffFiles_shape ir d p es2 es1 r hr
        have hp := of_decide_eq_true hcon
        rw [hpath] at hp
        have heqn : nm' = nm := List.append_cancel_left hp
        apply hnm
        rw [← heqn]
        have := List.mem_map_of_mem entryName hmemf
        simpa [entryName] using this
      have hsubnil : (diffSubdirs ir d p es2 es1).filter
          (fun r => decide (r.path = p ++ nm)) = [] := by
        apply List.filter_eq_nil_iff.mpr
        intro r hr hcon
        obtain ⟨m, cs1, cs2, rest, hmemd, hlookm, hpath⟩ :=
          diffSubdirs_shape es1 ir d p es2 r hr
        have hp := of_decide_eq_true hcon
        rw [hpath, List.append_assoc] at hp
        exact noSlashNoSplit nm m rest hslash (List.append_cancel_left hp)
      have hrosing : ((es2.filter (fun e => decide (entryName e ∉ es1.map entryName))).map
          (fun e => Record.mk (p ++ entryName e) DiffType.RIGHT_ONLY)).filter
          (fun r => decide (r.path = p ++ entryName (Entry.dir nm cs))) =
          [Record.mk (p ++ entryName (Entry.dir nm cs)) DiffType.RIGHT_ONLY] :=
        recFilter_singleton p DiffType.RIGHT_ONLY _ es2 h2 _ hmem (by
          simp only [entryName]
          exact decide_eq_true hnm)
      rw [diffDir, List.filter_append, List.filter_append, List.filter_append]
      have hnmname : entryName (Entry.dir nm cs) = nm := rfl
      rw [hnmname] at hrosing
      rw [hlonil, hrosing, hdfnil, hsubnil]
      simp
    · intro r hr hpre
      obtain ⟨t, ht⟩ := hpre
      rcases diffDir_shape ir d p es1 es2 r hr with ⟨nm', hmem', hpath⟩ | ⟨m, rest, hm1, hm2, hpath⟩
      · have hslash' : ('/' : Char) ∉ nm' := by
          rcases hmem' with hin | hin <;>
            obtain ⟨e, he, heq⟩ := List.mem_map.mp hin
          · exact heq ▸ hs1 e he
          · exact heq ▸ hs2 e he
        rw [hpath] at ht
        rw [List.append_assoc, List.append_assoc] at ht
        have := List.append_cancel_left ht
        simp only [List.singleton_append] at this
        exact noSlashNoSplit nm' nm t hslash' this
      · have hslashm : ('/' : Char) ∉ m := by
          obtain ⟨e, he, heq⟩ := List.mem_map.mp hm1
          exact heq ▸ hs1 e he
        rw [hpath] at ht
        rw [List.append_assoc, List.append_assoc, List.append_assoc] at ht
        have hcan := List.append_cancel_left ht
        simp only [List.singleton_append] at hcan
        obtain ⟨heqm, _⟩ := slashSplit nm m t rest hslash hslashm hcan
        exact hnm (heqm ▸ hm1)

/-- A successful group-2 match at position `j` certifies the right-boundary
condition of the spec predicate at `j`. -/
theorem g2At_bounded (s : Str) (j : Nat) (r : Nat × Str) (h : g2At s j = some r) :
    (decide (j = s.length) ||
      (match charAt? s j with
       | some c => isBoundary c
       | none => false)) = true := by
  rw [g2At] at h
  split at h
  · rename_i hle
    rw [lineEnd] at hle
    simp only [Bool.or_eq_true] at hle
    simp only [Bool.or_eq_true]
    rcases hle with h0 | hnl
    · exact Or.inl h0
    · right
      rw [of_decide_eq_true hnl]
      rfl
  · split at h
    · rename_i c hc
      split at h
      · rename_i hb
        simp only [Bool.or_eq_true]
        right
        try rw [hc]
        exact hb
      · exact absurd h (by simp)
    · exact absurd h (by simp)

/-- A successful match of the version regex at some position certifies a
spec-bounded occurrence of the (nonempty) version inside the string. -/
theorem matchAt_bounded (v s : Str) (i : Nat) (hv : v ≠ [])
    (r : Nat × Str × Str) (h : matchAt v s i = some r) :
    ∃ j, j < s.length ∧ specBoundedOccurrence v s j = true := by
  have hvpos : 0 < v.length := List.length_pos.mpr hv
  rw [matchAt] at h
  split at h
  · rename_i r' hanchor
    rw [matchAnchor] at hanchor
    split at hanchor
    · rename_i hcond
      rw [Bool.and_eq_true] at hcond
      obtain ⟨hls, hpre⟩ := hcond
      split at hanchor
      · rename_i e g2 hg2
        refine ⟨i, ?_, ?_⟩
        · have hp := List.isPrefixOf_iff_prefix.mp hpre
          have hlen := hp.length_le
          rw [List.length_drop] at hlen
          omega
        · rw [specBoundedOccurrence]
          simp only [Bool.and_eq_true]
          refine ⟨⟨hpre, ?_⟩, g2At_bounded s (i + v.length) _ hg2⟩
          rw [lineStart] at hls
          simp only [Bool.or_eq_true] at hls
          simp only [Bool.or_eq_true]
          rcases hls with h0 | hnl
          · exact Or.inl h0
          · right
            rw [of_decide_eq_true hnl]
            rfl
      · exact absurd hanchor (by simp)
    · exact absurd hanchor (by simp)
  · rename_i hanchor
    rw [matchBoundary] at h
    split at h
    · rename_i c hc
      split at h
      · rename_i hcond
        rw [Bool.and_eq_true] at hcond
        obtain ⟨hb, hpre⟩ := hcond
        split at h
        · rename_i e g2 hg2
          refine ⟨i + 1, ?_, ?_⟩
          · have hp := List.isPrefixOf_iff_prefix.mp hpre
            have hlen := hp.length_le
            rw [List.length_drop] at hlen
            omega
          · rw [specBoundedOccurrence]
            simp only [Bool.and_eq_true]
            refine ⟨⟨hpre, ?_⟩, g2At_bounded s (i + 1 + v.length) _ hg2⟩
            simp only [Bool.or_eq_true]
            right
            have : i + 1 - 1 = i := by omega
            rw [this, hc]
            exact hb
        · exact absurd h (by simp)
      · exact absurd h (by simp)
    · exact absurd h (by simp)

/-- When the string has no spec-bounded occurrence of the (nonempty) version,
the scanner finds no match anywhere. -/
theorem findFromAux_none (v s : Str) (hv : v ≠ [])
    (hnb : ∀ j, j < s.length → specBoundedOccurrence v s j = false) :
    ∀ (k i : Nat), findFromAux v s i k = none := by
  intro k
  induction k with
  | zero => intro i; rfl
  | succ k ih =>
    intro i
    cases hma : matchAt v s i with
    | some r =>
      exfalso
      obtain ⟨j, hj, hb⟩ := matchAt_bounded v s i hv r hma
      rw [hnb j hj] at hb
      cases hb
    | none =>
      simp only [findFromAux, hma]
      exact ih (i + 1)

/-- When the string has no spec-bounded occurrence of the (nonempty) version,
`pySub` leaves the content unchanged; in particular mid-word occurrences are
never replaced. -/
theorem pySub_no_bounded (v s : Str) (hv : v ≠ [])
    (hnb : ∀ j, j < s.length → specBoundedOccurrence v s j = false) :
    pySub v s = s := by
  have hfm : findMatch v s 0 = none := by
    rw [findMatch]
    exact findFromAux_none v s hv hnb _ _
  rw [pySub]
  simp only [pySubGo, hfm, List.drop_zero]

/-- Transfer of prefixes out of `pyReplaceNE`: a chunk `u` drawn from the
version's characters that is a prefix of the replaced string is already a
prefix of the original string, provided the replacement is nonempty and
shares no character with the version. -/
theorem isPrefixOf_pyReplaceNE (v P : Str) (hv : v ≠ []) (hP : P ≠ [])
    (hdisj : ∀ c ∈ v, c ∉ P) :
    ∀ (t u : Str), (∀ c ∈ u, c ∈ v) → u.isPrefixOf (pyReplaceNE v P t) = true →
      u.isPrefixOf t = true := by
  intro t
  induction t with
  | nil =>
    intro u hu hpre
    rw [pyReplaceNE] at hpre
    exact hpre
  | cons c t0 ih =>
    intro u hu hpre
    rw [pyReplaceNE] at hpre
    split at hpre
    · cases u with
      | nil => rfl
      | cons d u0 =>
        exfalso
        cases hPc : P with
        | nil => exact hP hPc
        | cons pc P0 =>
          rw [hPc, List.cons_append] at hpre
          simp only [List.isPrefixOf, Bool.and_eq_true, beq_iff_eq] at hpre
          apply hdisj d (hu d (List.mem_cons_self _ _))
          rw [hPc, hpre.1]
          exact List.mem_cons_self _ _
    · cases u with
      | nil => rfl
      | cons d u0 =>
        simp only [List.isPrefixOf, Bool.and_eq_true, beq_iff_eq] at hpre ⊢
        obtain ⟨hdc, hpre0⟩ := hpre
        exact ⟨hdc, ih u0 (fun x hx => hu x (List.mem_cons_of_mem d hx)) hpre0⟩

/-- Heads drawn from outside the version never begin an occurrence: occurrences
of `v` in `p0 ++ Z` lie inside `Z` when no character of `p0` occurs in `v`. -/
theorem pyContains_append_left (v : Str) (hv : v ≠ []) :
    ∀ (p0 Z : Str), (∀ c ∈ p0, c ∉ v) → pyContains v (p0 ++ Z) = pyContains v Z := by
  intro p0
  induction p0 with
  | nil => intro Z _; rfl
  | cons d p0' ih =>
    intro Z hp
    rw [List.cons_append, pyContains]
    have h1 : v.isPrefixOf (d :: (p0' ++ Z)) = false := by
      cases hv2 : v with
      | nil => exact absurd hv2 hv
      | cons e v0 =>
        rw [Bool.eq_false_iff]
        intro hcon
        simp only [List.isPrefixOf, Bool.and_eq_true, beq_iff_eq] at hcon
        apply hp d (List.mem_cons_self _ _)
        rw [hv2, ← hcon.1]
        exact List.mem_cons_self _ _
    rw [h1, Bool.false_or]
    exact ih Z (fun c hc => hp c (List.mem_cons_of_mem d hc))

/-- After one pass of `pyReplaceNE` no occurrence of the version remains,
provided the version is nonempty and shares no character with the
replacement. -/
theorem pyContains_pyReplaceNE (v P : Str) (hv : v ≠ []) (hP : P ≠ [])
    (hdisj : ∀ c ∈ v, c ∉ P) :
    ∀ (s : Str), pyContains v (pyReplaceNE v P s) = false := by
  have hvlen : 1 ≤ v.length := by
    cases v with
    | nil => exact absurd rfl hv
    | cons _ _ => simp
  have H : ∀ (N : Nat) (s : Str), s.length ≤ N →
      pyContains v (pyReplaceNE v P s) = false := by
    intro N
    induction N with
    | zero =>
      intro s hs
      have hs0 : s = [] := List.length_eq_zero.mp (Nat.le_zero.mp hs)
      subst hs0
      rw [pyReplaceNE]
      cases v with
      | nil => exact absurd rfl hv
      | cons e v0 => rfl
    | succ N ih =>
      intro s hs
      cases s with
      | nil =>
        rw [pyReplaceNE]
        cases v with
        | nil => exact absurd rfl hv
        | cons e v0 => rfl
      | cons c t =>
        rw [pyReplaceNE]
        split
        · rw [pyContains_append_left v hv P _ (fun x hxP hxv => hdisj x hxv hxP)]
          apply ih
          have hd : ((c :: t).drop v.length).length = (t.length + 1) - v.length := by
            simp [List.length_drop]
          rw [hd]
          simp only [List.length_cons] at hs
          omega
        · rename_i hcond
          rw [pyContains]
          have h1 : v.isPrefixOf (c :: pyReplaceNE v P t) = false := by
            rw [Bool.eq_false_iff]
            intro hcon
            obtain ⟨e, v0, hv2⟩ := List.exists_cons_of_ne_nil hv
            nth_rewrite 1 [hv2] at hcon
            simp only [List.isPrefixOf, Bool.and_eq_true, beq_iff_eq] at hcon
            obtain ⟨hec, hpre⟩ := hcon
            have hv0 : v0.isPrefixOf t = true := by
              apply isPrefixOf_pyReplaceNE v P hv hP hdisj t v0 ?_ hpre
              intro x hx
              rw [hv2]
              exact List.mem_cons_of_mem e hx
            apply hcond
            constructor
            · nth_rewrite 1 [hv2]
              simp only [List.isPrefixOf, Bool.and_eq_true, beq_iff_eq]
              exact ⟨hec, hv0⟩
            · exact hv
          rw [h1, Bool.false_or]
          apply ih
          simp only [List.length_cons] at hs
          omega
  intro s
  exact H s.length s (le_refl _)

/-- Replacement is the identity on strings without an occurrence. -/
theorem pyReplaceNE_of_not_contains (v P : Str) :
    ∀ (s : Str), pyContains v s = false → pyReplaceNE v P s = s := by
  intro s
  induction s with
  | nil => intro _; rw [pyReplaceNE]
  | cons c t ih =>
    intro h
    rw [pyContains] at h
    have h1 : v.isPrefixOf (c :: t) = false := by
      cases hh : v.isPrefixOf (c :: t)
      · rfl
      · rw [hh] at h; simp at h
    have h2 : pyContains v t = false := by
      cases hh : pyContains v t
      · rfl
      · rw [hh] at h; simp at h
    rw [pyReplaceNE]
    rw [dif_neg (by
      intro hcon
      exact absurd hcon.1 (by simp [h1]))]
    rw [ih h2]

/-- The renaming step of `normalize` is idempotent for version tokens sharing
no character with the placeholder. -/
theorem renameName_idem (v : Str) (hv : v ≠ [])
    (hdisj : ∀ c ∈ v, c ∉ placeholder) (n : Str) :
    renameName v (renameName v n) = renameName v n := by
  by_cases hc : pyContains v n = true
  · have hnc : pyContains v (renameName v n) = false := by
      rw [renameName, if_pos hc, pyReplace, if_neg hv]
      exact pyContains_pyReplaceNE v placeholder hv (by decide) hdisj n
    conv_lhs => rw [renameName]
    rw [if_neg (by simp [hnc])]
  · have hn : renameName v n = n := by
      rw [renameName, if_neg hc]
    rw [hn, hn]

mutual

/-- Names-and-structure skeleton of an entry: file contents erased. -/
def skeletonEntry : Entry → Entry
  | .file n _ => .file n (.binary [])
  | .dir n es => .dir n (skeletonList es)

/-- Skeleton of a listing. -/
def skeletonList : List Entry → List Entry
  | [] => []
  | e :: es => skeletonEntry e :: skeletonList es

end

/-! ### Claim theorems -/

/-- C1 (counterexample): in the spec's concrete scenario, normalizing
`{a.txt = "v1.0 hello"}` with version token `1.0` does NOT produce
`{a.txt = "$VERSION hello"}` — the occurrence of `1.0` is preceded by the
letter `v`, which is not a boundary character, so nothing is rewritten. -/
theorem c1_counterexample :
    normalizeList ("1.0".toList) true
      [Entry.file ("a.txt".toList) (Content.text ("v1.0 hello".toList))] ≠
      [Entry.file ("a.txt".toList) (Content.text ("$VERSION hello".toList))] := by
  simp only [normalizeList, normalizeEntry]
  decide

/-- C1 (amended): for the concrete trees `{a.txt = "v1.0 hello"}` and
`{a.txt = "v2.0 hello"}` with version tokens `1.0` and `2.0` and content
rewriting enabled, normalization leaves both trees unchanged (the token is
mid-word), the session produces exactly one `TEXT_DIFFERS` record for
`a.txt`, and the exit status is 2 ("differences found"). -/
theorem c1_actual :
    (normalizeList ("1.0".toList) true
      [Entry.file ("a.txt".toList) (Content.text ("v1.0 hello".toList))] =
      [Entry.file ("a.txt".toList) (Content.text ("v1.0 hello".toList))]) ∧
    (normalizeList ("2.0".toList) true
      [Entry.file ("a.txt".toList) (Content.text ("v2.0 hello".toList))] =
      [Entry.file ("a.txt".toList) (Content.text ("v2.0 hello".toList))]) ∧
    sessionRecords [("version".toList)] ("/tmp/w1".toList) ("1.0".toList) ("2.0".toList)
      [Entry.file ("a.txt".toList) (Content.text ("v1.0 hello".toList))]
      [Entry.file ("a.txt".toList) (Content.text ("v2.0 hello".toList))] =
      [⟨"a.txt".toList, DiffType.TEXT_DIFFERS⟩] ∧
    sessionExit [("version".toList)] ("/tmp/w1".toList) ("1.0".toList) ("2.0".toList)
      [Entry.file ("a.txt".toList) (Content.text ("v1.0 hello".toList))]
      [Entry.file ("a.txt".toList) (Content.text ("v2.0 hello".toList))] = 2 := by
  refine ⟨?_, ?_, ?_, ?_⟩
  · simp only [normalizeList, normalizeEntry]
    decide
  · simp only [normalizeList, normalizeEntry]
    decide
  · simp only [sessionRecords, normalizeList, normalizeEntry, diffDir, diffSubdirs, diffFiles]
    decide
  · simp only [sessionExit, exitStatus, sessionRecords, normalizeList, normalizeEntry,
      diffDir, diffSubdirs, diffFiles]
    decide

/-- C2 (counterexample): in `"1.0 1.0"` the second occurrence of `1.0` is
bounded (space before, string end after), yet the substitution leaves it in
place — the first match consumed the separating space — so not every bounded
occurrence is replaced. -/
theorem c2_counterexample :
    pySub ("1.0".toList) ("1.0 1.0".toList) = "$VERSION 1.0".toList ∧
    specBoundedOccurrence ("1.0".toList) ("1.0 1.0".toList) 4 = true ∧
    pySub ("1.0".toList) ("1.0 1.0".toList) ≠ "$VERSION $VERSION".toList := by
  refine ⟨by decide, by decide, by decide⟩

/-- C2 (amended): a mid-word occurrence is never replaced — a content without
any spec-bounded occurrence of the (nonempty) token is left unchanged by the
content rewriting; bounded occurrences are replaced left to right consuming
their boundary characters, so an occurrence whose left boundary character was
consumed by the previous match is skipped, as in `"1.0 1.0"`, which rewrites
to `"$VERSION 1.0"` with the boundary characters preserved verbatim. -/
theorem c2_amended :
    (∀ (v s : Str), v ≠ [] →
      (∀ j, j < s.length → specBoundedOccurrence v s j = false) →
      pySub v s = s) ∧
    pySub ("1.0".toList) ("1.0 1.0".toList) = "$VERSION 1.0".toList :=
  ⟨pySub_no_bounded, by decide⟩

/-- C2 (witness): the universally quantified part of the amended claim applied
to the token `ab` and the content `xaby`, whose only occurrence is mid-word. -/
theorem c2_witness :
    (("ab".toList : Str) ≠ [] ∧
      (∀ j, j < ("xaby".toList : Str).length →
        specBoundedOccurrence ("ab".toList) ("xaby".toList) j = false)) ∧
    pySub ("ab".toList) ("xaby".toList) = "xaby".toList :=
  ⟨⟨by decide, by decide⟩,
    c2_amended.1 ("ab".toList) ("xaby".toList) (by decide) (by decide)⟩

/-- C3: a session that completes exits with status 0 when the accumulated
record list is empty and with status 2 when it is nonempty. -/
theorem c3_exit_status (ignoreList : List Str) (root1 : Str) (v1 v2 : Str)
    (t1 t2 : List Entry) :
    (sessionRecords ignoreList root1 v1 v2 t1 t2 = [] →
      sessionExit ignoreList root1 v1 v2 t1 t2 = 0) ∧
    (sessionRecords ignoreList root1 v1 v2 t1 t2 ≠ [] →
      sessionExit ignoreList root1 v1 v2 t1 t2 = 2) := by
  constructor
  · intro h
    rw [sessionExit, exitStatus, if_pos h]
  · intro h
    rw [sessionExit, exitStatus, if_neg h]

/-- C3 (witness): an identical pair of trees exits 0; a pair differing by one
left-only file exits 2. -/
theorem c3_witness :
    (sessionRecords [] ("/t".toList) ("1.0".toList) ("1.0".toList) [] [] = [] ∧
     sessionExit [] ("/t".toList) ("1.0".toList) ("1.0".toList) [] [] = 0) ∧
    (sessionRecords [] ("/t".toList) ("1.0".toList) ("2.0".toList)
        [Entry.file ("a".toList) (Content.text ("x".toList))] [] ≠ [] ∧
     sessionExit [] ("/t".toList) ("1.0".toList) ("2.0".toList)
        [Entry.file ("a".toList) (Content.text ("x".toList))] [] = 2) := by
  have h1 : sessionRecords [] ("/t".toList) ("1.0".toList) ("1.0".toList) [] [] = [] := by
    simp only [sessionRecords, normalizeList, diffDir, diffSubdirs, diffFiles]
    decide
  have h2 : sessionRecords [] ("/t".toList) ("1.0".toList) ("2.0".toList)
      [Entry.file ("a".toList) (Content.text ("x".toList))] [] ≠ [] := by
    simp only [sessionRecords, normalizeList, normalizeEntry, diffDir, diffSubdirs, diffFiles]
    decide
  exact ⟨⟨h1, (c3_exit_status [] ("/t".toList) ("1.0".toList) ("1.0".toList) [] []).1 h1⟩,
    ⟨h2, (c3_exit_status [] ("/t".toList) ("1.0".toList) ("2.0".toList)
      [Entry.file ("a".toList) (Content.text ("x".toList))] []).2 h2⟩⟩

/-- C4 (witness): a common file `a`, text on the left and binary on the right,
yields exactly one `BINARY_DIFFERS` record. -/
theorem c4_witness :
    ((([Entry.file ("a".toList) (Content.text ("x".toList))] : List Entry).map
        entryName).Nodup ∧
      (([Entry.file ("a".toList) (Content.binary [0])] : List Entry).map
        entryName).Nodup ∧
      Content.text ("x".toList) ≠ Content.binary [0] ∧
      ('/' : Char) ∉ ("a".toList : Str) ∧
      (false && pyEndswith (("/t".toList : Str) ++ '/' :: ("a".toList))
        recordSuffix) = false) ∧
    (diffDir false ("/t".toList) [] [Entry.file ("a".toList) (Content.text ("x".toList))]
        [Entry.file ("a".toList) (Content.binary [0])]).filter
      (fun r => decide (r.path = ([] : Str) ++ ("a".toList : Str))) =
      [⟨([] : Str) ++ ("a".toList : Str),
        if isTextContent (Content.text ("x".toList)) && isTextContent (Content.binary [0])
        then DiffType.TEXT_DIFFERS else DiffType.BINARY_DIFFERS⟩] :=
  ⟨⟨by decide, by decide, by decide, by decide, by decide⟩,
    c4_unique_record false ("/t".toList) [] _ _ (by decide) (by decide)
      ("a".toList) (Content.text ("x".toList)) (Content.binary [0])
      (List.mem_singleton.mpr rfl) (List.mem_singleton.mpr rfl)
      (by decide) (by decide) (by decide)⟩

/-- C5 (counterexample): `normalize` is not idempotent — for the tree
`{a.txt = "1.0 1.0"}` with token `1.0` and content rewriting enabled, the
first pass produces `"$VERSION 1.0"` (boundary consumption) and the second
pass rewrites the surviving occurrence to `"$VERSION $VERSION"`. -/
theorem c5_counterexample :
    normalizeList ("1.0".toList) true
      (normalizeList ("1.0".toList) true
        [Entry.file ("a.txt".toList) (Content.text ("1.0 1.0".toList))]) ≠
      normalizeList ("1.0".toList) true
        [Entry.file ("a.txt".toList) (Content.text ("1.0 1.0".toList))] := by
  simp only [normalizeList, normalizeEntry]
  decide

/-- C5 (amended): a second run of `normalize` with the same arguments changes
no entry name and no directory structure provided the token shares no
character with the placeholder `$VERSION` — the skeletons of the once- and
twice-normalized trees agree; file contents may still change on the second
run because the substitution consumes boundary characters. -/
theorem c5_amended :
    ∀ (v : Str) (vic : Bool) (t : List Entry), v ≠ [] →
      (∀ c ∈ v, c ∉ placeholder) →
      skeletonList (normalizeList v vic (normalizeList v vic t)) =
        skeletonList (normalizeList v vic t) := by
  intro v vic t hv hdisj
  refine entryListStrongInd
    (P := fun t => skeletonList (normalizeList v vic (normalizeList v vic t)) =
      skeletonList (normalizeList v vic t)) ?_ t
  intro es IH
  induction es with
  | nil => simp [normalizeList]
  | cons e es' ihes =>
    have IHtail := ihes (fun m cs hm => IH m cs (List.mem_cons_of_mem e hm))
    simp only [normalizeList, skeletonList]
    rw [List.cons.injEq]
    refine ⟨?_, IHtail⟩
    cases e with
    | file n c =>
      simp only [normalizeEntry, skeletonEntry]
      rw [renameName_idem v hv hdisj n]
    | dir m cs =>
      simp only [normalizeEntry, skeletonEntry]
      rw [renameName_idem v hv hdisj m]
      rw [IH m cs (List.mem_cons_self _ _)]

/-- C5 (witness): the amended claim applied to the token `1.0` (character
disjoint from the placeholder) and a one-file tree. -/
theorem c5_witness :
    (("1.0".toList : Str) ≠ [] ∧ ∀ c ∈ ("1.0".toList : Str), c ∉ placeholder) ∧
    skeletonList (normalizeList ("1.0".toList) true
        (normalizeList ("1.0".toList) true
          [Entry.file ("a.txt".toList) (Content.text ("1.0 1.0".toList))])) =
      skeletonList (normalizeList ("1.0".toList) true
        [Entry.file ("a.txt".toList) (Content.text ("1.0 1.0".toList))]) :=
  ⟨⟨by decide, by decide⟩,
    c5_amended ("1.0".toList) true
      [Entry.file ("a.txt".toList) (Content.text ("1.0 1.0".toList))]
      (by decide) (by decide)⟩

/-- Length of the Python empty-pattern replacement: `rep` is inserted before
every character and once at the end. -/
theorem pyReplace_empty_length (P : Str) :
    ∀ (n : Str), (pyReplace [] P n).length = n.length + P.length * (n.length + 1) := by
  have hfold : ∀ (n : Str),
      (List.foldr (fun c acc => c :: (P ++ acc)) [] n).length =
        n.length + P.length * n.length := by
    intro n
    induction n with
    | nil => simp
    | cons c t ih =>
      simp only [List.foldr_cons, List.length_cons, List.length_append, ih]
      rw [Nat.mul_succ]
      omega
  intro n
  rw [pyReplace, if_pos rfl]
  simp only [List.length_append, hfold]
  rw [Nat.mul_succ]
  omega

/-- C6 (counterexample): an empty version token is neither rejected nor a
no-op — the entry named `a` is renamed to `$VERSIONa$VERSION`, because Python
`"" in name` is always true and `name.replace("", "$VERSION")` inserts the
placeholder around every character. -/
theorem c6_counterexample :
    normalizeList [] false [Entry.file ("a".toList) (Content.binary [0])] =
      [Entry.file ("$VERSIONa$VERSION".toList) (Content.binary [0])] ∧
    normalizeList [] false [Entry.file ("a".toList) (Content.binary [0])] ≠
      [Entry.file ("a".toList) (Content.binary [0])] := by
  constructor
  · simp only [normalizeList, normalizeEntry]
    decide
  · simp only [normalizeList, normalizeEntry]
    decide

/-- C6 (amended): with an empty version token, `normalize` renames every
entry — each name grows by an inserted placeholder around every character —
so on any nonempty tree it is never a no-op, and no rejection exists. -/
theorem c6_amended (vic : Bool) :
    ∀ (t : List Entry), t ≠ [] → normalizeList [] vic t ≠ t := by
  intro t ht hcon
  cases t with
  | nil => exact ht rfl
  | cons e es =>
    rw [normalizeList] at hcon
    simp only [List.cons.injEq] at hcon
    obtain ⟨h1, _⟩ := hcon
    have hname : entryName (normalizeEntry [] vic e) = renameName [] (entryName e) := by
      cases e <;> simp [normalizeEntry, entryName]
    have hptrue : pyContains [] (entryName e) = true := by
      cases he : entryName e with
      | nil => rfl
      | cons c t0 => rfl
    have hlen : (renameName [] (entryName e)).length =
        (entryName e).length + placeholder.length * ((entryName e).length + 1) := by
      rw [renameName, if_pos hptrue]
      exact pyReplace_empty_length placeholder (entryName e)
    have hplen : placeholder.length = 8 := by decide
    rw [h1] at hname
    have hname_len := congrArg List.length hname
    rw [hlen, hplen] at hname_len
    omega

/-- C6 (witness): the amended claim applied to a one-file tree. -/
theorem c6_witness :
    ([Entry.file ("a".toList) (Content.binary [0])] : List Entry) ≠ [] ∧
    normalizeList [] false [Entry.file ("a".toList) (Content.binary [0])] ≠
      [Entry.file ("a".toList) (Content.binary [0])] :=
  ⟨List.cons_ne_nil _ _,
    c6_amended false [Entry.file ("a".toList) (Content.binary [0])]
      (List.cons_ne_nil _ _)⟩

/-- C7: with the record ignore policy active, a common differing file whose
on-disk path ends in `.dist-info/RECORD` produces no record at all; with the
policy inactive it produces one record, `TEXT_DIFFERS` or `BINARY_DIFFERS`
according to whether both contents pass `is_text`. -/
theorem c7_record_policy (c1 c2 : Content) (hne : c1 ≠ c2) :
    diffDir true ("/w/pkg-1.0.dist-info".toList) ("pkg-1.0.dist-info/".toList)
      [Entry.file ("RECORD".toList) c1] [Entry.file ("RECORD".toList) c2] = [] ∧
    diffDir false ("/w/pkg-1.0.dist-info".toList) ("pkg-1.0.dist-info/".toList)
      [Entry.file ("RECORD".toList) c1] [Entry.file ("RECORD".toList) c2] =
      [⟨("pkg-1.0.dist-info/".toList : Str) ++ "RECORD".toList,
        if isTextContent c1 && isTextContent c2 then DiffType.TEXT_DIFFERS
        else DiffType.BINARY_DIFFERS⟩] := by
  constructor
  · rw [diffDir, diffSubdirs, diffSubdirs, diffFiles, diffFiles]
    simp only [lookupEntry, entryName, List.find?, List.map, List.filter, decide_True]
    rw [if_neg hne, if_pos (show (true && pyEndswith (("/w/pkg-1.0.dist-info".toList : Str)
      ++ '/' :: ("RECORD".toList)) recordSuffix) = true by decide)]
    simp
  · rw [diffDir, diffSubdirs, diffSubdirs, diffFiles, diffFiles]
    simp only [lookupEntry, entryName, List.find?, List.map, List.filter, decide_True]
    rw [if_neg hne, if_neg (show ¬ (false && pyEndswith (("/w/pkg-1.0.dist-info".toList : Str)
      ++ '/' :: ("RECORD".toList)) recordSuffix) = true by decide)]
    simp

/-- C7 (witness): the policy theorem applied to two differing text contents. -/
theorem c7_witness :
    Content.text ("a".toList) ≠ Content.text ("b".toList) ∧
    diffDir true ("/w/pkg-1.0.dist-info".toList) ("pkg-1.0.dist-info/".toList)
      [Entry.file ("RECORD".toList) (Content.text ("a".toList))]
      [Entry.file ("RECORD".toList) (Content.text ("b".toList))] = [] :=
  ⟨by decide,
    (c7_record_policy (Content.text ("a".toList)) (Content.text ("b".toList))
      (by decide)).1⟩

/-- C8 (witness): the one-sided-directory theorem applied to a tree whose only
entry is a directory `sub` with one file inside, against an empty tree. -/
theorem c8_witness :
    ((diffDir false ("/t".toList) [] [Entry.dir ("sub".toList)
        [Entry.file ("f".toList) (Content.binary [])]] []).filter
      (fun r => decide (r.path = ([] : Str) ++ ("sub".toList : Str))) =
      [⟨([] : Str) ++ ("sub".toList : Str), DiffType.LEFT_ONLY⟩]) ∧
    ∀ r ∈ diffDir false ("/t".toList) [] [Entry.dir ("sub".toList)
        [Entry.file ("f".toList) (Content.binary [])]] [],
      ¬ ((([] : Str) ++ ("sub".toList : Str) ++ ['/']) <+: r.path) :=
  (c8_one_sided_dirs false ("/t".toList) [] [Entry.dir ("sub".toList)
      [Entry.file ("f".toList) (Content.binary [])]] []
    (by decide) (by decide) (by decide) (by decide)).1
    ("sub".toList) [Entry.file ("f".toList) (Content.binary [])]
    (List.mem_singleton.mpr rfl) (by decide)

/-- C9 (counterexample): the configuration `--ignore bogus` is not rejected —
the unknown token flows into the effective ignore list unchanged, and the
session runs to completion with it. -/
theorem c9_counterexample :
    effectiveIgnore [("bogus".toList)] [] = [("bogus".toList)] ∧
    sessionRecords [("bogus".toList)] ("/t".toList) ("1.0".toList) ("1.0".toList)
      [] [] = [] := by
  constructor
  · decide
  · simp only [sessionRecords, normalizeList, diffDir, diffSubdirs, diffFiles]
    decide

/-- C9 (amended): no validation of ignore tokens is performed; unknown tokens
are accepted into the effective ignore list and never influence the session's
records — only membership of `version` and `record` is consulted. -/
theorem c9_amended (ig : List Str) (root1 : Str) (v1 v2 : Str) (t1 t2 : List Entry) :
    sessionRecords ig root1 v1 v2 t1 t2 =
      sessionRecords (ig.filter (fun tok =>
        decide (tok = "version".toList ∨ tok = "record".toList))) root1 v1 v2 t1 t2 := by
  have hver : decide (("version".toList : Str) ∈ ig.filter (fun tok =>
      decide (tok = "version".toList ∨ tok = "record".toList))) =
      decide (("version".toList : Str) ∈ ig) := by
    rw [decide_eq_decide]
    constructor
    · exact fun h => (List.mem_filter.mp h).1
    · intro h
      exact List.mem_filter.mpr ⟨h, by decide⟩
  have hrec : decide (("record".toList : Str) ∈ ig.filter (fun tok =>
      decide (tok = "version".toList ∨ tok = "record".toList))) =
      decide (("record".toList : Str) ∈ ig) := by
    rw [decide_eq_decide]
    constructor
    · exact fun h => (List.mem_filter.mp h).1
    · intro h
      exact List.mem_filter.mpr ⟨h, by decide⟩
  rw [sessionRecords, sessionRecords, hver, hrec]

/-- C10: `is_text` is total and never propagates an exception: whenever
reading the path fails — the path is missing, unreadable, or its bytes do not
strictly decode — it returns `false`, and it returns `true` exactly on a
successful read. -/
theorem c10_is_text_total (st : PathState) :
    ((∃ msg, read_text st = Except.error msg) → is_text st = false) ∧
    ((∃ s, read_text st = Except.ok s) → is_text st = true) ∧
    (is_text PathState.missing = false ∧ is_text PathState.unreadable = false) := by
  refine ⟨?_, ?_, by decide⟩
  · rintro ⟨msg, h⟩
    rw [is_text, h]
  · rintro ⟨s, h⟩
    rw [is_text, h]

/-- C10 (witness): a missing path reads as an error and classifies as not
text, rather than raising. -/
theorem c10_witness :
    (∃ msg, read_text PathState.missing = Except.error msg) ∧
    is_text PathState.missing = false :=
  ⟨⟨"FileNotFoundError", rfl⟩,
    (c10_is_text_total PathState.missing).1 ⟨"FileNotFoundError", rfl⟩⟩

end WheelDiff

